import Mathlib

/-!
Verification of the stack-driven traversal engine `from_value` of the
`miniserde-from-value` repository (src/lib.rs).

The engine converts a generic JSON-like value tree (miniserde's
`json::Value`) into a typed value by driving miniserde's deserialization
protocol (`de::Visitor`, `de::Seq`, `de::Map`) with an explicit work stack
(`Vec<Event>`) instead of call-stack recursion.

Shallow embedding choices:
* `Value` mirrors `miniserde::json::Value`; `Object` is a `BTreeMap` in the
  source and is modelled here as the list of key/value pairs in the order the
  map is iterated.
* The mutable world threaded through the protocol (the `out` slot written via
  `&mut`, plus any state of the `Deserialize` implementation) is an explicit
  state type `σ`.  The trait objects `dyn Visitor`, `Box<dyn Seq>` and
  `Box<dyn Map>` become bundles of state-passing functions; a fallible call
  `fn f(&mut self) -> Result<()>` becomes `σ → Option σ` (`none` is
  miniserde's unit `Error`).
* The `careful!` macro of the source (module `careful`, a lifetime-extension
  cast needed to keep a visitor borrowed from a builder alive while the
  builder sits on the stack) is value-level identity and is modelled as such.
* `loop` is the `while let Some(event) = stack.pop()` driver; the Lean list
  head is the stack top.  `from_value` wraps it exactly as the source does:
  seed the stack with `Event::Visitor(v, T::begin(&mut out))`, run the loop,
  then `out.ok_or(Error)`.
-/

namespace MiniserdeFromValue

/-- miniserde's `json::Number`: `U64(u64) | I64(i64) | F64(f64)`. -/
inductive Number where
  | u64 (n : Nat)
  | i64 (n : Int)
  | f64 (x : Float)

/-- miniserde's `json::Value`.  `Object` (a `BTreeMap<String, Value>`) is
modelled as the list of entries in the order the map iterates them. -/
inductive Value where
  | null
  | bool (b : Bool)
  | str (s : String)
  | num (n : Number)
  | arr (a : List Value)
  | obj (o : List (String × Value))

/-- miniserde's `Error`: a unit struct carrying no information.  Every failure
in the crate is this single value. -/
inductive MError where
  | err
deriving DecidableEq

mutual

/-- A size measure on values used to drive the well-founded recursion of the
driver loop (it is the number of loop iterations the subtree costs, plus one
per container). -/
def vsize : Value → Nat
  | .null => 1
  | .bool _ => 1
  | .str _ => 1
  | .num _ => 1
  | .arr a => 2 + lsize a
  | .obj o => 2 + osize o

/-- Size of a list of pending array elements. -/
def lsize : List Value → Nat
  | [] => 0
  | v :: r => vsize v + 2 + lsize r

/-- Size of a list of pending object entries. -/
def osize : List (String × Value) → Nat
  | [] => 0
  | e :: r => vsize e.2 + 2 + osize r

end

mutual

/-- miniserde's `de::Visitor` trait object, as a bundle of state-passing
functions over the mutable world `σ`.  Each method is single-shot and
fallible; `seq`/`map` additionally yield a fresh builder. -/
inductive Visitor (σ : Type) : Type where
  | mk
    (null : σ → Option σ)
    (boolean : Bool → σ → Option σ)
    (string : String → σ → Option σ)
    (nonnegative : Nat → σ → Option σ)
    (negative : Int → σ → Option σ)
    (float : Float → σ → Option σ)
    (seq : σ → Option (σ × Seqb σ))
    (map : σ → Option (σ × Mapb σ))

/-- miniserde's `de::Seq` trait object (`Box<dyn Seq>`): `element` yields a
visitor for the next element, `finish` commits the sequence. -/
inductive Seqb (σ : Type) : Type where
  | mk
    (element : σ → Option (σ × Visitor σ))
    (finish : σ → Option σ)

/-- miniserde's `de::Map` trait object (`Box<dyn Map>`): `key` yields a
visitor for the entry at a given key, `finish` commits the mapping. -/
inductive Mapb (σ : Type) : Type where
  | mk
    (key : String → σ → Option (σ × Visitor σ))
    (finish : σ → Option σ)

end

def Visitor.null {σ} : Visitor σ → σ → Option σ
  | .mk f _ _ _ _ _ _ _ => f

def Visitor.boolean {σ} : Visitor σ → Bool → σ → Option σ
  | .mk _ f _ _ _ _ _ _ => f

def Visitor.string {σ} : Visitor σ → String → σ → Option σ
  | .mk _ _ f _ _ _ _ _ => f

def Visitor.nonnegative {σ} : Visitor σ → Nat → σ → Option σ
  | .mk _ _ _ f _ _ _ _ => f

def Visitor.negative {σ} : Visitor σ → Int → σ → Option σ
  | .mk _ _ _ _ f _ _ _ => f

def Visitor.float {σ} : Visitor σ → Float → σ → Option σ
  | .mk _ _ _ _ _ f _ _ => f

def Visitor.seq {σ} : Visitor σ → σ → Option (σ × Seqb σ)
  | .mk _ _ _ _ _ _ f _ => f

def Visitor.map {σ} : Visitor σ → σ → Option (σ × Mapb σ)
  | .mk _ _ _ _ _ _ _ f => f

def Seqb.element {σ} : Seqb σ → σ → Option (σ × Visitor σ)
  | .mk f _ => f

def Seqb.finish {σ} : Seqb σ → σ → Option σ
  | .mk _ f => f

def Mapb.key {σ} : Mapb σ → String → σ → Option (σ × Visitor σ)
  | .mk f _ => f

def Mapb.finish {σ} : Mapb σ → σ → Option σ
  | .mk _ f => f

/-- The source's `enum Event<'a>`: one frame of pending work.
`Event::Seq`/`Event::Map` pair the not-yet-consumed remainder of the source
container's iterator with the builder that accumulates it. -/
inductive Event (σ : Type) where
  | visitor (v : Value) (vis : Visitor σ)
  | seq (rest : List Value) (b : Seqb σ)
  | map (rest : List (String × Value)) (b : Mapb σ)

/-- Measure of one frame, for the loop's termination. -/
def esize {σ} : Event σ → Nat
  | .visitor v _ => vsize v
  | .seq rest _ => 1 + lsize rest
  | .map rest _ => 1 + osize rest

/-- Measure of the whole work stack. -/
def stackSize {σ} (stack : List (Event σ)) : Nat :=
  (stack.map esize).sum

/-- The driver loop of `from_value` (`while let Some(event) = stack.pop()`),
with the Lean list head as the stack top.  Dispatches on the popped frame,
makes the matching protocol call, and propagates the first failure
(`?` in the source) by returning `Except.error`. -/
def loop {σ} (s : σ) (stack : List (Event σ)) : Except MError σ :=
  match stack with
  | [] => .ok s
  | .visitor v vis :: rest =>
    match v with
    | .null =>
      match vis.null s with
      | none => .error .err
      | some s' => loop s' rest
    | .bool b =>
      match vis.boolean b s with
      | none => .error .err
      | some s' => loop s' rest
    | .str t =>
      match vis.string t s with
      | none => .error .err
      | some s' => loop s' rest
    | .num (.u64 n) =>
      match vis.nonnegative n s with
      | none => .error .err
      | some s' => loop s' rest
    | .num (.i64 n) =>
      match vis.negative n s with
      | none => .error .err
      | some s' => loop s' rest
    | .num (.f64 x) =>
      match vis.float x s with
      | none => .error .err
      | some s' => loop s' rest
    | .arr a =>
      match vis.seq s with
      | none => .error .err
      | some (s', b) => loop s' (.seq a b :: rest)
    | .obj o =>
      match vis.map s with
      | none => .error .err
      | some (s', b) => loop s' (.map o b :: rest)
  | .seq as b :: rest =>
    match as with
    | v :: as' =>
      match b.element s with
      | none => .error .err
      | some (s', elV) => loop s' (.visitor v elV :: .seq as' b :: rest)
    | [] =>
      match b.finish s with
      | none => .error .err
      | some s' => loop s' rest
  | .map os b :: rest =>
    match os with
    | (k, v) :: os' =>
      match b.key k s with
      | none => .error .err
      | some (s', kV) => loop s' (.visitor v kV :: .map os' b :: rest)
    | [] =>
      match b.finish s with
      | none => .error .err
      | some s' => loop s' rest
termination_by stackSize stack
decreasing_by
  all_goals simp [stackSize, esize, vsize, lsize, osize]
  all_goals omega

/-- One protocol call, as observable at the trait boundary: the method
invoked and its argument. -/
inductive TCall where
  | null
  | boolean (b : Bool)
  | string (s : String)
  | nonnegative (n : Nat)
  | negative (n : Int)
  | float (x : Float)
  | seqBegin
  | mapBegin
  | element
  | key (k : String)
  | seqFinish
  | mapFinish

/-- A recorded protocol call together with whether it succeeded. -/
structure CallRec where
  call : TCall
  ok : Bool

/-- The driver loop instrumented with a call trace: identical control flow to
`loop`, but additionally returns the list of protocol calls it made, in
order, each tagged with its outcome.  `(loopT s stack).2 = loop s stack`
(proved below as `loopT_snd`). -/
def loopT {σ} (s : σ) (stack : List (Event σ)) :
    List CallRec × Except MError σ :=
  match stack with
  | [] => ([], .ok s)
  | .visitor v vis :: rest =>
    match v with
    | .null =>
      match vis.null s with
      | none => ([⟨.null, false⟩], .error .err)
      | some s' =>
        let r := loopT s' rest
        (⟨.null, true⟩ :: r.1, r.2)
    | .bool b =>
      match vis.boolean b s with
      | none => ([⟨.boolean b, false⟩], .error .err)
      | some s' =>
        let r := loopT s' rest
        (⟨.boolean b, true⟩ :: r.1, r.2)
    | .str t =>
      match vis.string t s with
      | none => ([⟨.string t, false⟩], .error .err)
      | some s' =>
        let r := loopT s' rest
        (⟨.string t, true⟩ :: r.1, r.2)
    | .num (.u64 n) =>
      match vis.nonnegative n s with
      | none => ([⟨.nonnegative n, false⟩], .error .err)
      | some s' =>
        let r := loopT s' rest
        (⟨.nonnegative n, true⟩ :: r.1, r.2)
    | .num (.i64 n) =>
      match vis.negative n s with
      | none => ([⟨.negative n, false⟩], .error .err)
      | some s' =>
        let r := loopT s' rest
        (⟨.negative n, true⟩ :: r.1, r.2)
    | .num (.f64 x) =>
      match vis.float x s with
      | none => ([⟨.float x, false⟩], .error .err)
      | some s' =>
        let r := loopT s' rest
        (⟨.float x, true⟩ :: r.1, r.2)
    | .arr a =>
      match vis.seq s with
      | none => ([⟨.seqBegin, false⟩], .error .err)
      | some (s', b) =>
        let r := loopT s' (.seq a b :: rest)
        (⟨.seqBegin, true⟩ :: r.1, r.2)
    | .obj o =>
      match vis.map s with
      | none => ([⟨.mapBegin, false⟩], .error .err)
      | some (s', b) =>
        let r := loopT s' (.map o b :: rest)
        (⟨.mapBegin, true⟩ :: r.1, r.2)
  | .seq as b :: rest =>
    match as with
    | v :: as' =>
      match b.element s with
      | none => ([⟨.element, false⟩], .error .err)
      | some (s', elV) =>
        let r := loopT s' (.visitor v elV :: .seq as' b :: rest)
        (⟨.element, true⟩ :: r.1, r.2)
    | [] =>
      match b.finish s with
      | none => ([⟨.seqFinish, false⟩], .error .err)
      | some s' =>
        let r := loopT s' rest
        (⟨.seqFinish, true⟩ :: r.1, r.2)
  | .map os b :: rest =>
    match os with
    | (k, v) :: os' =>
      match b.key k s with
      | none => ([⟨.key k, false⟩], .error .err)
      | some (s', kV) =>
        let r := loopT s' (.visitor v kV :: .map os' b :: rest)
        (⟨.key k, true⟩ :: r.1, r.2)
    | [] =>
      match b.finish s with
      | none => ([⟨.mapFinish, false⟩], .error .err)
      | some s' =>
        let r := loopT s' rest
        (⟨.mapFinish, true⟩ :: r.1, r.2)
termination_by stackSize stack
decreasing_by
  all_goals simp [stackSize, esize, vsize, lsize, osize]
  all_goals omega

/-- The source's `from_value`.  The mutable world is `Option τ × ρ`: the
first component is the `out` slot created by `from_value` itself
(`let mut out = None`), the second the deserializer's own state.  `beginV`
is `T::begin(&mut out)`.  After the loop, `out.ok_or(Error)`. -/
def from_value {τ ρ : Type} (beginV : Visitor (Option τ × ρ)) (r0 : ρ)
    (v : Value) : Except MError τ :=
  match loop (none, r0) [.visitor v beginV] with
  | .error e => .error e
  | .ok s =>
    match s.1 with
    | some t => .ok t
    | none => .error .err

mutual

/-- The canonical call trace of a fully successful conversion of one value:
the matching acceptance call for a leaf; for a container, the begin call
followed by the container's element/entry schedule. -/
def ctrace : Value → List CallRec
  | .null => [⟨.null, true⟩]
  | .bool b => [⟨.boolean b, true⟩]
  | .str s => [⟨.string s, true⟩]
  | .num (.u64 n) => [⟨.nonnegative n, true⟩]
  | .num (.i64 n) => [⟨.negative n, true⟩]
  | .num (.f64 x) => [⟨.float x, true⟩]
  | .arr a => ⟨.seqBegin, true⟩ :: ctraceL a
  | .obj o => ⟨.mapBegin, true⟩ :: ctraceO o

/-- Canonical schedule of a sequence builder with `rest` still to feed: one
`element` request per element, immediately followed by that element's own
complete conversion, then a single final `finish`. -/
def ctraceL : List Value → List CallRec
  | [] => [⟨.seqFinish, true⟩]
  | v :: r => ⟨.element, true⟩ :: (ctrace v ++ ctraceL r)

/-- Canonical schedule of a mapping builder with `rest` still to feed: one
`key` request per entry (in entry order), immediately followed by that
entry's value conversion, then a single final `finish`. -/
def ctraceO : List (String × Value) → List CallRec
  | [] => [⟨.mapFinish, true⟩]
  | e :: r => ⟨.key e.1, true⟩ :: (ctrace e.2 ++ ctraceO r)

end

/-- Canonical trace of one pending frame. -/
def etrace {σ} : Event σ → List CallRec
  | .visitor v _ => ctrace v
  | .seq rest _ => ctraceL rest
  | .map rest _ => ctraceO rest

/-- Canonical trace of a whole pending stack (top first). -/
def stackTrace {σ} (stack : List (Event σ)) : List CallRec :=
  (stack.map etrace).flatten

/-- Predicate: `failTrace t` holds exactly when `t` is a run of successful calls closed
by a single failing call in last position. -/
def failTrace : List CallRec → Bool
  | [] => false
  | [r] => !r.ok
  | r :: rest => r.ok && failTrace rest

/-- The driver loop instrumented with a frame counter: identical control flow
to `loop`, but additionally returns how many frames were popped and
processed (`(loopC s stack).2 = loop s stack`, proved below). -/
def loopC {σ} (s : σ) (stack : List (Event σ)) : Nat × Except MError σ :=
  match stack with
  | [] => (0, .ok s)
  | .visitor v vis :: rest =>
    match v with
    | .null =>
      match vis.null s with
      | none => (1, .error .err)
      | some s' =>
        let r := loopC s' rest
        (r.1 + 1, r.2)
    | .bool b =>
      match vis.boolean b s with
      | none => (1, .error .err)
      | some s' =>
        let r := loopC s' rest
        (r.1 + 1, r.2)
    | .str t =>
      match vis.string t s with
      | none => (1, .error .err)
      | some s' =>
        let r := loopC s' rest
        (r.1 + 1, r.2)
    | .num (.u64 n) =>
      match vis.nonnegative n s with
      | none => (1, .error .err)
      | some s' =>
        let r := loopC s' rest
        (r.1 + 1, r.2)
    | .num (.i64 n) =>
      match vis.negative n s with
      | none => (1, .error .err)
      | some s' =>
        let r := loopC s' rest
        (r.1 + 1, r.2)
    | .num (.f64 x) =>
      match vis.float x s with
      | none => (1, .error .err)
      | some s' =>
        let r := loopC s' rest
        (r.1 + 1, r.2)
    | .arr a =>
      match vis.seq s with
      | none => (1, .error .err)
      | some (s', b) =>
        let r := loopC s' (.seq a b :: rest)
        (r.1 + 1, r.2)
    | .obj o =>
      match vis.map s with
      | none => (1, .error .err)
      | some (s', b) =>
        let r := loopC s' (.map o b :: rest)
        (r.1 + 1, r.2)
  | .seq as b :: rest =>
    match as with
    | v :: as' =>
      match b.element s with
      | none => (1, .error .err)
      | some (s', elV) =>
        let r := loopC s' (.visitor v elV :: .seq as' b :: rest)
        (r.1 + 1, r.2)
    | [] =>
      match b.finish s with
      | none => (1, .error .err)
      | some s' =>
        let r := loopC s' rest
        (r.1 + 1, r.2)
  | .map os b :: rest =>
    match os with
    | (k, v) :: os' =>
      match b.key k s with
      | none => (1, .error .err)
      | some (s', kV) =>
        let r := loopC s' (.visitor v kV :: .map os' b :: rest)
        (r.1 + 1, r.2)
    | [] =>
      match b.finish s with
      | none => (1, .error .err)
      | some s' =>
        let r := loopC s' rest
        (r.1 + 1, r.2)
termination_by stackSize stack
decreasing_by
  all_goals simp [stackSize, esize, vsize, lsize, osize]
  all_goals omega

mutual

/-- Number of frames a fully successful conversion of one value pops: one
`VisitNode` frame per node, plus one continuation pop per container element,
plus the final continuation pop (the one that finds the iterator exhausted
and calls finish) per container. -/
def pops : Value → Nat
  | .null => 1
  | .bool _ => 1
  | .str _ => 1
  | .num _ => 1
  | .arr a => 1 + popsL a
  | .obj o => 1 + popsO o

/-- Frames popped while a sequence continuation with `rest` pending runs to
completion. -/
def popsL : List Value → Nat
  | [] => 1
  | v :: r => 1 + pops v + popsL r

/-- Frames popped while a mapping continuation with `rest` pending runs to
completion. -/
def popsO : List (String × Value) → Nat
  | [] => 1
  | e :: r => 1 + pops e.2 + popsO r

end

/-- Frames a fully successful run pops for one pending frame. -/
def epops {σ} : Event σ → Nat
  | .visitor v _ => pops v
  | .seq rest _ => popsL rest
  | .map rest _ => popsO rest

/-- Frames a fully successful run pops for a whole pending stack. -/
def stackPops {σ} (stack : List (Event σ)) : Nat :=
  (stack.map epops).sum

mutual

/-- Number of nodes of the value tree. -/
def nodes : Value → Nat
  | .null => 1
  | .bool _ => 1
  | .str _ => 1
  | .num _ => 1
  | .arr a => 1 + nodesL a
  | .obj o => 1 + nodesO o

def nodesL : List Value → Nat
  | [] => 0
  | v :: r => nodes v + nodesL r

def nodesO : List (String × Value) → Nat
  | [] => 0
  | e :: r => nodes e.2 + nodesO r

end

mutual

/-- Total number of container elements/entries in the tree (each array
contributes its length, each object its entry count, recursively). -/
def elems : Value → Nat
  | .null => 0
  | .bool _ => 0
  | .str _ => 0
  | .num _ => 0
  | .arr a => a.length + elemsL a
  | .obj o => o.length + elemsO o

def elemsL : List Value → Nat
  | [] => 0
  | v :: r => elems v + elemsL r

def elemsO : List (String × Value) → Nat
  | [] => 0
  | e :: r => elems e.2 + elemsO r

end

mutual

/-- Number of containers (arrays and objects) in the tree. -/
def conts : Value → Nat
  | .null => 0
  | .bool _ => 0
  | .str _ => 0
  | .num _ => 0
  | .arr a => 1 + contsL a
  | .obj o => 1 + contsO o

def contsL : List Value → Nat
  | [] => 0
  | v :: r => conts v + contsL r

def contsO : List (String × Value) → Nat
  | [] => 0
  | e :: r => conts e.2 + contsO r

end

/-- One in-progress container build of the tree-rebuilding protocol. -/
inductive BAcc where
  | seqAcc (l : List Value)
  | mapAcc (l : List (String × Value))

/-- State of the tree-rebuilding protocol: the `out` slot plus the stack of
in-progress container accumulators, innermost first. -/
abbrev RState := Option Value × List BAcc

/-- Append a finished element to the innermost sequence accumulator. -/
def writeSeqTop (v : Value) : RState → RState
  | (o, .seqAcc l :: bs) => (o, .seqAcc (l ++ [v]) :: bs)
  | s => s

/-- Append a finished entry to the innermost mapping accumulator. -/
def writeMapTop (k : String) (v : Value) : RState → RState
  | (o, .mapAcc l :: bs) => (o, .mapAcc (l ++ [(k, v)]) :: bs)
  | s => s

/-- Write the finished root value into the `out` slot. -/
def rootWrite (v : Value) : RState → RState
  | (_, bs) => (some v, bs)

/-- Finish the innermost sequence accumulator and hand the built array to the
enclosing write. -/
def popSeq (write : Value → RState → RState) : RState → Option RState
  | (o, .seqAcc l :: bs) => some (write (.arr l) (o, bs))
  | _ => none

/-- Finish the innermost mapping accumulator and hand the built object to the
enclosing write. -/
def popMap (write : Value → RState → RState) : RState → Option RState
  | (o, .mapAcc l :: bs) => some (write (.obj l) (o, bs))
  | _ => none

/-- The tree-rebuilding construction protocol (the canonical protocol whose
corresponding tree-encoding is the identity): a visitor that accepts every
value shape and writes the reconstructed subtree via `write`.  `fuel` bounds
only how deep a `Visitor`, as a finite inductive value, can expose builders;
any given input tree is fully accepted by taking `fuel` at least its size. -/
def mkV : Nat → (Value → RState → RState) → Visitor RState
  | 0, write => .mk
      (fun s => some (write .null s))
      (fun b s => some (write (.bool b) s))
      (fun t s => some (write (.str t) s))
      (fun n s => some (write (.num (.u64 n)) s))
      (fun n s => some (write (.num (.i64 n)) s))
      (fun x s => some (write (.num (.f64 x)) s))
      (fun _ => none)
      (fun _ => none)
  | fuel + 1, write => .mk
      (fun s => some (write .null s))
      (fun b s => some (write (.bool b) s))
      (fun t s => some (write (.str t) s))
      (fun n s => some (write (.num (.u64 n)) s))
      (fun n s => some (write (.num (.i64 n)) s))
      (fun x s => some (write (.num (.f64 x)) s))
      (fun s => some ((s.1, .seqAcc [] :: s.2),
        .mk (fun s' => some (s', mkV fuel writeSeqTop)) (popSeq write)))
      (fun s => some ((s.1, .mapAcc [] :: s.2),
        .mk (fun k s' => some (s', mkV fuel (writeMapTop k))) (popMap write)))

/-- An array nested to depth `d`: `[[[ ... null ... ]]]`. -/
def nest : Nat → Value
  | 0 => .null
  | d + 1 => .arr [nest d]

/-- A degenerate root visitor: accepts every leaf without writing the output
slot, and refuses containers.  Models a buggy `Deserialize` implementation
that completes the traversal without producing a result. -/
def inertV : Visitor (Option Unit × Unit) :=
  .mk (fun s => some s) (fun _ s => some s) (fun _ s => some s)
    (fun _ s => some s) (fun _ s => some s) (fun _ s => some s)
    (fun _ => none) (fun _ => none)

/-- A visitor that rejects every call outright (every shape is wrong for the
target type). -/
def rejectV : Visitor (Option Unit × Unit) :=
  .mk (fun _ => none) (fun _ _ => none) (fun _ _ => none) (fun _ _ => none)
    (fun _ _ => none) (fun _ _ => none) (fun _ => none) (fun _ => none)

/-- Element visitor of the `Vec<u64>`-like stub: accepts only non-negative
numbers. -/
def natLeafV : Visitor (Option Unit × Unit) :=
  .mk (fun _ => none) (fun _ _ => none) (fun _ _ => none)
    (fun _ s => some s) (fun _ _ => none) (fun _ _ => none)
    (fun _ => none) (fun _ => none)

/-- Root visitor of the `Vec<u64>`-like stub: accepts only a sequence, whose
elements must all be non-negative numbers; `finish` marks the output slot. -/
def natSeqV : Visitor (Option Unit × Unit) :=
  .mk (fun _ => none) (fun _ _ => none) (fun _ _ => none) (fun _ _ => none)
    (fun _ _ => none) (fun _ _ => none)
    (fun s => some (s, .mk (fun s' => some (s', natLeafV))
      (fun s' => some (some (), s'.2))))
    (fun _ => none)

/-- The spec's fail-fast scenario: a five-element sequence whose element 2
(0-based) is malformed for a `Vec<u64>`-like target. -/
def vbad : Value :=
  .arr [.num (.u64 1), .num (.u64 2), .str "oops", .num (.u64 4), .num (.u64 5)]

/-- The instrumented loop computes exactly the uninstrumented loop's result. -/
theorem loopT_snd {σ} (s : σ) (stack : List (Event σ)) :
    (loopT s stack).2 = loop s stack := by
  induction s, stack using loopT.induct <;>
    simp_all [loopT, loop]

/-- On a fully successful run, the calls made are exactly the canonical
trace of the initial stack: every call succeeds, elements and entries are
requested in source order, each child's conversion completes before the next
continuation step, and each builder is finished exactly once, after its last
element. -/
theorem loopT_ok_trace {σ} (s : σ) (stack : List (Event σ)) :
    ∀ s', (loopT s stack).2 = .ok s' → (loopT s stack).1 = stackTrace stack := by
  induction s, stack using loopT.induct <;>
    intro s' h <;>
    simp_all [loopT, stackTrace, etrace, ctrace, ctraceL, ctraceO]

/-- Appending one successful call in front preserves `failTrace`. -/
theorem failTrace_cons_true (c : TCall) (t : List CallRec) :
    failTrace t = true → failTrace (⟨c, true⟩ :: t) = true := by
  cases t with
  | nil => simp [failTrace]
  | cons a l => intro h; simpa [failTrace] using h

/-- Characterisation of `failTrace`: all-successful calls followed by exactly one
failing call in last position. -/
theorem failTrace_iff (t : List CallRec) :
    failTrace t = true ↔
      ∃ pre c, t = pre ++ [CallRec.mk c false] ∧ ∀ r ∈ pre, r.ok = true := by
  induction t with
  | nil =>
    simp [failTrace]
  | cons a l ih =>
    cases l with
    | nil =>
      constructor
      · intro h
        have hofa : a.ok = false := by
          simpa [failTrace] using h
        refine ⟨[], a.call, ?_, by simp⟩
        cases a
        simp_all
      · rintro ⟨pre, c, h1, h2⟩
        cases pre with
        | nil =>
          simp only [List.nil_append] at h1
          obtain ⟨ha, -⟩ := List.cons.inj h1
          subst ha
          simp [failTrace]
        | cons p pre' =>
          simp only [List.cons_append] at h1
          obtain ⟨rfl, h1'⟩ := List.cons.inj h1
          exact absurd h1' (by simp)
    | cons b l' =>
      constructor
      · intro h
        simp only [failTrace, Bool.and_eq_true] at h
        obtain ⟨hok, ht⟩ := h
        obtain ⟨pre, c, h1, h2⟩ := ih.mp ht
        refine ⟨a :: pre, c, by simp [h1], ?_⟩
        intro r hr
        rcases List.mem_cons.mp hr with rfl | hr'
        · exact hok
        · exact h2 r hr'
      · rintro ⟨pre, c, h1, h2⟩
        cases pre with
        | nil => simp at h1
        | cons p pre' =>
          simp only [List.cons_append] at h1
          obtain ⟨rfl, h1'⟩ := List.cons.inj h1
          have hok : a.ok = true := h2 a (by simp)
          have ht : failTrace (b :: l') = true :=
            ih.mpr ⟨pre', c, h1', fun r hr => h2 r (by simp [hr])⟩
          have hstep := failTrace_cons_true a.call (b :: l') ht
          have ha : (⟨a.call, true⟩ : CallRec) = a := by
            cases a
            simp_all
          rwa [ha] at hstep

/-- On a failing run, the trace is a block of successful calls closed by the
single failing call, in last position: nothing is called after the first
failure. -/
theorem loopT_error_failTrace {σ} (s : σ) (stack : List (Event σ)) :
    ∀ e, (loopT s stack).2 = .error e →
      failTrace (loopT s stack).1 = true := by
  induction s, stack using loopT.induct <;> intro e h <;>
    first
      | (rename_i hc ih
         have h1 := ih e (by simp_all [loopT])
         simp [loopT, hc]
         exact failTrace_cons_true _ _ h1)
      | (rename_i hc
         simp [loopT, hc, failTrace])
      | (simp [loopT] at h)

/-- Mutual structural induction over values, pending element lists and
pending entry lists, derived from the size measures. -/
theorem value_induction3 (P : Value → Prop) (Q : List Value → Prop)
    (R : List (String × Value) → Prop)
    (hnull : P .null) (hbool : ∀ b, P (.bool b)) (hstr : ∀ s, P (.str s))
    (hnum : ∀ n, P (.num n))
    (harr : ∀ a, Q a → P (.arr a)) (hobj : ∀ o, R o → P (.obj o))
    (hqnil : Q []) (hqcons : ∀ v r, P v → Q r → Q (v :: r))
    (hrnil : R []) (hrcons : ∀ e r, P e.2 → R r → R (e :: r)) :
    (∀ v, P v) ∧ (∀ l, Q l) ∧ (∀ o, R o) := by
  have key : ∀ n, (∀ v, vsize v ≤ n → P v) ∧ (∀ l, lsize l ≤ n → Q l) ∧
      (∀ o, osize o ≤ n → R o) := by
    intro n
    induction n with
    | zero =>
      refine ⟨?_, ?_, ?_⟩
      · intro v hv
        cases v <;> simp [vsize] at hv
      · intro l hl
        cases l with
        | nil => exact hqnil
        | cons v r => simp [lsize] at hl
      · intro o ho
        cases o with
        | nil => exact hrnil
        | cons e r => simp [osize] at ho
    | succ n ihn =>
      obtain ⟨ihP, ihQ, ihR⟩ := ihn
      refine ⟨?_, ?_, ?_⟩
      · intro v hv
        cases v with
        | null => exact hnull
        | bool b => exact hbool b
        | str s => exact hstr s
        | num m => exact hnum m
        | arr a =>
          refine harr a (ihQ a ?_)
          simp [vsize] at hv
          omega
        | obj o =>
          refine hobj o (ihR o ?_)
          simp [vsize] at hv
          omega
      · intro l hl
        cases l with
        | nil => exact hqnil
        | cons v r =>
          simp [lsize] at hl
          exact hqcons v r (ihP v (by omega)) (ihQ r (by omega))
      · intro o ho
        cases o with
        | nil => exact hrnil
        | cons e r =>
          simp [osize] at ho
          exact hrcons e r (ihP e.2 (by omega)) (ihR r (by omega))
  exact ⟨fun v => (key (vsize v)).1 v le_rfl,
    fun l => (key (lsize l)).2.1 l le_rfl,
    fun o => (key (osize o)).2.2 o le_rfl⟩

/-- The counting loop computes exactly the uninstrumented loop's result. -/
theorem loopC_snd {σ} (s : σ) (stack : List (Event σ)) :
    (loopC s stack).2 = loop s stack := by
  induction s, stack using loopC.induct <;>
    simp_all [loopC, loop]

/-- On a fully successful run, the number of frames popped and processed is
the canonical pop count of the initial stack. -/
theorem loopC_ok_count {σ} (s : σ) (stack : List (Event σ)) :
    ∀ s', (loopC s stack).2 = .ok s' → (loopC s stack).1 = stackPops stack := by
  induction s, stack using loopC.induct <;> intro s' h <;>
    simp_all [loopC, stackPops, epops, pops, popsL, popsO] <;>
    omega

/-- The canonical pop count is the node count plus the element/entry count
plus the container count. -/
theorem pops_identity : ∀ v, pops v = nodes v + elems v + conts v := by
  have h := value_induction3
    (fun v => pops v = nodes v + elems v + conts v)
    (fun l => popsL l = 1 + l.length + nodesL l + elemsL l + contsL l)
    (fun o => popsO o = 1 + o.length + nodesO o + elemsO o + contsO o)
    (by simp [pops, nodes, elems, conts])
    (fun b => by simp [pops, nodes, elems, conts])
    (fun s => by simp [pops, nodes, elems, conts])
    (fun n => by simp [pops, nodes, elems, conts])
    (fun a ha => by simp [pops, nodes, elems, conts, ha]; omega)
    (fun o ho => by simp [pops, nodes, elems, conts, ho]; omega)
    (by simp [popsL, nodesL, elemsL, contsL])
    (fun v r hv hr => by
      simp [popsL, nodesL, elemsL, contsL, hv, hr]; omega)
    (by simp [popsO, nodesO, elemsO, contsO])
    (fun e r he hr => by
      simp [popsO, nodesO, elemsO, contsO, he, hr]; omega)
  exact h.1

/-- Central invariant of the tree-rebuilding protocol: converting `v` with a
`mkV fuel write` visitor (fuel at least the size of `v`) behaves exactly
like applying `write v` to the state and moving on to the rest of the
stack. -/
theorem mkV_loop :
    ∀ v : Value, ∀ fuel, vsize v ≤ fuel →
      ∀ write (s : RState) (rest : List (Event RState)),
        loop s (.visitor v (mkV fuel write) :: rest) = loop (write v s) rest := by
  have h := value_induction3
    (fun v => ∀ fuel, vsize v ≤ fuel → ∀ write (s : RState) rest,
      loop s (.visitor v (mkV fuel write) :: rest) = loop (write v s) rest)
    (fun a => ∀ fuel, lsize a ≤ fuel →
      ∀ write (o : Option Value) (bs : List BAcc) l rest,
      loop (o, .seqAcc l :: bs)
        (.seq a (Seqb.mk (fun s' => some (s', mkV fuel writeSeqTop))
          (popSeq write)) :: rest)
        = loop (write (.arr (l ++ a)) (o, bs)) rest)
    (fun ol => ∀ fuel, osize ol ≤ fuel →
      ∀ write (o : Option Value) (bs : List BAcc) l rest,
      loop (o, .mapAcc l :: bs)
        (.map ol (Mapb.mk (fun k s' => some (s', mkV fuel (writeMapTop k)))
          (popMap write)) :: rest)
        = loop (write (.obj (l ++ ol)) (o, bs)) rest)
    (fun fuel _ write s rest => by
      cases fuel <;> simp [loop, mkV, Visitor.null])
    (fun b fuel _ write s rest => by
      cases fuel <;> simp [loop, mkV, Visitor.boolean])
    (fun t fuel _ write s rest => by
      cases fuel <;> simp [loop, mkV, Visitor.string])
    (fun m fuel _ write s rest => by
      cases m <;> cases fuel <;>
        simp [loop, mkV, Visitor.nonnegative, Visitor.negative, Visitor.float])
    (fun a ha fuel hf write s rest => by
      cases fuel with
      | zero => simp [vsize] at hf
      | succ f =>
        have h1 : lsize a ≤ f := by simp [vsize] at hf; omega
        have h2 := ha f h1 write s.1 s.2 [] rest
        simp only [List.nil_append] at h2
        simp [loop, mkV, Visitor.seq, h2])
    (fun ol ho fuel hf write s rest => by
      cases fuel with
      | zero => simp [vsize] at hf
      | succ f =>
        have h1 : osize ol ≤ f := by simp [vsize] at hf; omega
        have h2 := ho f h1 write s.1 s.2 [] rest
        simp only [List.nil_append] at h2
        simp [loop, mkV, Visitor.map, h2])
    (fun fuel _ write o bs l rest => by
      simp [loop, Seqb.finish, popSeq])
    (fun v r hv hr fuel hf write o bs l rest => by
      have hv' : vsize v ≤ fuel := by simp [lsize] at hf; omega
      have hr' : lsize r ≤ fuel := by simp [lsize] at hf; omega
      have h1 := hv fuel hv' writeSeqTop (o, .seqAcc l :: bs)
        (.seq r (Seqb.mk (fun s' => some (s', mkV fuel writeSeqTop))
          (popSeq write)) :: rest)
      have h2 := hr fuel hr' write o bs (l ++ [v]) rest
      simp only [writeSeqTop] at h1
      simp [loop, Seqb.element, h1, h2])
    (fun fuel _ write o bs l rest => by
      simp [loop, Mapb.finish, popMap])
    (fun e r he hr fuel hf write o bs l rest => by
      obtain ⟨k, v⟩ := e
      have hv' : vsize v ≤ fuel := by simp [osize] at hf; omega
      have hr' : osize r ≤ fuel := by simp [osize] at hf; omega
      have h1 := he fuel hv' (writeMapTop k) (o, .mapAcc l :: bs)
        (.map r (Mapb.mk (fun k s' => some (s', mkV fuel (writeMapTop k)))
          (popMap write)) :: rest)
      have h2 := hr fuel hr' write o bs (l ++ [(k, v)]) rest
      simp only [writeMapTop] at h1
      simp [loop, Mapb.key, h1, h2])
  exact h.1

/-- Converting any value with the tree-rebuilding protocol (fuel at least the
value's size) succeeds and returns the value itself. -/
theorem from_value_mkV (fuel : Nat) (v : Value) (hf : vsize v ≤ fuel) :
    from_value (mkV fuel rootWrite) [] v = .ok v := by
  have h := mkV_loop v fuel hf rootWrite (none, []) []
  simp [from_value, h, loop, rootWrite]

/-- The canonical sequence schedule always ends with the builder's single
finish call. -/
theorem ctraceL_ends_finish :
    ∀ a, ∃ pre, ctraceL a = pre ++ [CallRec.mk .seqFinish true] := by
  intro a
  induction a with
  | nil => exact ⟨[], by simp [ctraceL]⟩
  | cons v r ih =>
    obtain ⟨pre, hp⟩ := ih
    exact ⟨⟨.element, true⟩ :: (ctrace v ++ pre), by simp [ctraceL, hp]⟩

/-- The canonical mapping schedule always ends with the builder's single
finish call. -/
theorem ctraceO_ends_finish :
    ∀ o, ∃ pre, ctraceO o = pre ++ [CallRec.mk .mapFinish true] := by
  intro o
  induction o with
  | nil => exact ⟨[], by simp [ctraceO]⟩
  | cons e r ih =>
    obtain ⟨pre, hp⟩ := ih
    exact ⟨⟨.key e.1, true⟩ :: (ctrace e.2 ++ pre), by simp [ctraceO, hp]⟩

/-- The tower `nest d` contains exactly `d` containers. -/
theorem nest_conts : ∀ d, conts (nest d) = d := by
  intro d
  induction d with
  | zero => simp [nest, conts]
  | succ n ih => simp [nest, conts, contsL, ih]; omega

/-- C1: `from_value` returns a typed value exactly when the driver loop
terminates with the output slot populated; if the loop runs the stack to
empty with the slot never populated, it returns an error rather than a
value (`out.ok_or(Error)`). -/
theorem from_value_out_slot {τ ρ : Type} (beginV : Visitor (Option τ × ρ))
    (r0 : ρ) (v : Value) :
    (∀ t : τ, from_value beginV r0 v = .ok t ↔
      ∃ sf : Option τ × ρ,
        loop (none, r0) [.visitor v beginV] = .ok sf ∧ sf.1 = some t) ∧
    (∀ sf : Option τ × ρ,
      loop (none, r0) [.visitor v beginV] = .ok sf → sf.1 = none →
        from_value beginV r0 v = .error .err) := by
  constructor
  · intro t
    cases h : loop (none, r0) [Event.visitor v beginV] with
    | error e => simp [from_value, h]
    | ok sf => cases hsf : sf.1 <;> simp [from_value, h, hsf]
  · intro sf h hnone
    simp [from_value, h, hnone]

/-- Witness for C1: a degenerate protocol that completes the traversal of
`null` without populating the slot makes `from_value` return the error. -/
theorem from_value_out_slot_witness :
    loop ((none : Option Unit), ()) [.visitor .null inertV] = .ok (none, ()) ∧
    from_value inertV () .null = .error .err :=
  ⟨by simp [loop, inertV, Visitor.null],
   (from_value_out_slot inertV () .null).2 (none, ())
     (by simp [loop, inertV, Visitor.null]) rfl⟩

/-- C2: the first failing protocol call aborts the conversion: `from_value`
returns exactly that (unit) error and no value, and the call trace is a
block of successful calls closed by the single failing call in last
position — nothing is requested after it. -/
theorem fail_fast_first_error {τ ρ : Type} (beginV : Visitor (Option τ × ρ))
    (r0 : ρ) (v : Value) (e : MError) :
    (loopT (none, r0) [.visitor v beginV]).2 = .error e →
      from_value beginV r0 v = .error e ∧
      ∃ pre c, (loopT (none, r0) [.visitor v beginV]).1
          = pre ++ [CallRec.mk c false] ∧
        ∀ r ∈ pre, r.ok = true := by
  intro h
  constructor
  · have hl : loop (none, r0) [Event.visitor v beginV] = .error e := by
      rw [← loopT_snd]
      exact h
    simp [from_value, hl]
  · exact (failTrace_iff _).mp (loopT_error_failTrace _ _ e h)

/-- Witness for C2 at the spec's scenario: element 2 (0-based) of a
five-element sequence is malformed; the conversion errors, and the trace
ends at the failing string call — elements 3 and 4 are never requested. -/
theorem fail_fast_first_error_witness :
    (loopT ((none : Option Unit), ()) [.visitor vbad natSeqV]).2
        = .error .err ∧
    ((loopT ((none : Option Unit), ()) [.visitor vbad natSeqV]).1
        = [⟨.seqBegin, true⟩, ⟨.element, true⟩, ⟨.nonnegative 1, true⟩,
           ⟨.element, true⟩, ⟨.nonnegative 2, true⟩, ⟨.element, true⟩,
           ⟨.string "oops", false⟩]) ∧
    from_value natSeqV () vbad = .error .err ∧
    ∃ pre c, (loopT ((none : Option Unit), ()) [.visitor vbad natSeqV]).1
        = pre ++ [CallRec.mk c false] ∧ ∀ r ∈ pre, r.ok = true := by
  have h : (loopT ((none : Option Unit), ()) [.visitor vbad natSeqV]).2
      = .error .err := by
    simp [loopT, vbad, natSeqV, natLeafV, Visitor.seq, Visitor.nonnegative,
      Visitor.string, Seqb.element]
  have hc := fail_fast_first_error natSeqV () vbad .err h
  refine ⟨h, ?_, hc.1, hc.2⟩
  simp [loopT, vbad, natSeqV, natLeafV, Visitor.seq, Visitor.nonnegative,
    Visitor.string, Seqb.element]

/-- C3: each leaf node causes exactly one protocol call, the matching
single-shot acceptance method with the leaf's payload: null to `null`,
Bool to `boolean`, String to `string`, a U64 number to `nonnegative`, an
I64 number to `negative`, an F64 number to `float`. -/
theorem leaf_dispatch {σ} (vis : Visitor σ) (s : σ)
    (b : Bool) (t : String) (n : Nat) (i : Int) (x : Float) :
    (loopT s [.visitor .null vis]).1
        = [⟨.null, (vis.null s).isSome⟩] ∧
    (loopT s [.visitor (.bool b) vis]).1
        = [⟨.boolean b, (vis.boolean b s).isSome⟩] ∧
    (loopT s [.visitor (.str t) vis]).1
        = [⟨.string t, (vis.string t s).isSome⟩] ∧
    (loopT s [.visitor (.num (.u64 n)) vis]).1
        = [⟨.nonnegative n, (vis.nonnegative n s).isSome⟩] ∧
    (loopT s [.visitor (.num (.i64 i)) vis]).1
        = [⟨.negative i, (vis.negative i s).isSome⟩] ∧
    (loopT s [.visitor (.num (.f64 x)) vis]).1
        = [⟨.float x, (vis.float x s).isSome⟩] := by
  refine ⟨?_, ?_, ?_, ?_, ?_, ?_⟩
  · cases h : vis.null s <;> simp [loopT, h]
  · cases h : vis.boolean b s <;> simp [loopT, h]
  · cases h : vis.string t s <;> simp [loopT, h]
  · cases h : vis.nonnegative n s <;> simp [loopT, h]
  · cases h : vis.negative i s <;> simp [loopT, h]
  · cases h : vis.float x s <;> simp [loopT, h]

/-- C4: on a successful conversion of an array, the trace is the begin call
followed by the canonical sequence schedule: one `element` request per
source element, in source iteration order, each immediately followed by that
element's complete conversion (the continuation is re-pushed beneath the
element's frame), and one final `finish` as the very last call. -/
theorem seq_order_finish {σ} (s : σ) (vis : Visitor σ) (a : List Value)
    (sf : σ) :
    (loopT s [.visitor (.arr a) vis]).2 = .ok sf →
      (loopT s [.visitor (.arr a) vis]).1 = ⟨.seqBegin, true⟩ :: ctraceL a ∧
      ∃ pre, (loopT s [.visitor (.arr a) vis]).1
          = (⟨.seqBegin, true⟩ :: pre) ++ [CallRec.mk .seqFinish true] := by
  intro h
  have h1 := loopT_ok_trace s [.visitor (.arr a) vis] sf h
  have h2 : (loopT s [.visitor (.arr a) vis]).1
      = ⟨.seqBegin, true⟩ :: ctraceL a := by
    simpa [stackTrace, etrace, ctrace] using h1
  obtain ⟨pre, hp⟩ := ctraceL_ends_finish a
  exact ⟨h2, pre, by simp [h2, hp]⟩

/-- Witness for C4 on `[1, true]` with the tree-rebuilding protocol. -/
theorem seq_order_finish_witness :
    (loopT ((none : Option Value), ([] : List BAcc))
        [.visitor (.arr [.num (.u64 1), .bool true]) (mkV 9 rootWrite)]).2
      = .ok (some (.arr [.num (.u64 1), .bool true]), []) ∧
    (loopT ((none : Option Value), ([] : List BAcc))
        [.visitor (.arr [.num (.u64 1), .bool true]) (mkV 9 rootWrite)]).1
      = ⟨.seqBegin, true⟩ :: ctraceL [.num (.u64 1), .bool true] ∧
    ∃ pre, (loopT ((none : Option Value), ([] : List BAcc))
        [.visitor (.arr [.num (.u64 1), .bool true]) (mkV 9 rootWrite)]).1
      = (⟨.seqBegin, true⟩ :: pre) ++ [CallRec.mk .seqFinish true] := by
  have h : (loopT ((none : Option Value), ([] : List BAcc))
      [.visitor (.arr [.num (.u64 1), .bool true]) (mkV 9 rootWrite)]).2
      = .ok (some (.arr [.num (.u64 1), .bool true]), []) := by
    simp [loopT, mkV, Visitor.seq, Visitor.nonnegative, Visitor.boolean,
      Seqb.element, Seqb.finish, popSeq, writeSeqTop, rootWrite]
  have hc := seq_order_finish _ _ _ _ h
  exact ⟨h, hc.1, hc.2⟩

/-- C5: on a successful conversion of an object, entries are fed to the
mapping builder in source iteration order, the `key` call for each entry
coming immediately before that entry's value conversion, with one final
`finish`; and the typed result of the order-recording (tree-rebuilding)
protocol lists the entries in exactly the source object's iteration
order. -/
theorem map_order_preserved {σ} (s : σ) (vis : Visitor σ)
    (o : List (String × Value)) (sf : σ) :
    ((loopT s [.visitor (.obj o) vis]).2 = .ok sf →
      (loopT s [.visitor (.obj o) vis]).1 = ⟨.mapBegin, true⟩ :: ctraceO o ∧
      ∃ pre, (loopT s [.visitor (.obj o) vis]).1
          = (⟨.mapBegin, true⟩ :: pre) ++ [CallRec.mk .mapFinish true]) ∧
    from_value (mkV (vsize (.obj o)) rootWrite) [] (.obj o) = .ok (.obj o) := by
  constructor
  · intro h
    have h1 := loopT_ok_trace s [.visitor (.obj o) vis] sf h
    have h2 : (loopT s [.visitor (.obj o) vis]).1
        = ⟨.mapBegin, true⟩ :: ctraceO o := by
      simpa [stackTrace, etrace, ctrace] using h1
    obtain ⟨pre, hp⟩ := ctraceO_ends_finish o
    exact ⟨h2, pre, by simp [h2, hp]⟩
  · exact from_value_mkV _ _ le_rfl

/-- Witness for C5 on `{"b": null, "a": 5}` (note: fed in the source's own
iteration order, which the result preserves). -/
theorem map_order_preserved_witness :
    (loopT ((none : Option Value), ([] : List BAcc))
        [.visitor (.obj [("b", .null), ("a", .num (.u64 5))])
          (mkV 9 rootWrite)]).2
      = .ok (some (.obj [("b", .null), ("a", .num (.u64 5))]), []) ∧
    (loopT ((none : Option Value), ([] : List BAcc))
        [.visitor (.obj [("b", .null), ("a", .num (.u64 5))])
          (mkV 9 rootWrite)]).1
      = ⟨.mapBegin, true⟩ :: ctraceO [("b", .null), ("a", .num (.u64 5))] ∧
    from_value (mkV (vsize (.obj [("b", .null), ("a", .num (.u64 5))]))
        rootWrite) [] (.obj [("b", .null), ("a", .num (.u64 5))])
      = .ok (.obj [("b", .null), ("a", .num (.u64 5))]) := by
  have h : (loopT ((none : Option Value), ([] : List BAcc))
      [.visitor (.obj [("b", .null), ("a", .num (.u64 5))])
        (mkV 9 rootWrite)]).2
      = .ok (some (.obj [("b", .null), ("a", .num (.u64 5))]), []) := by
    simp [loopT, mkV, Visitor.map, Visitor.null, Visitor.nonnegative,
      Mapb.key, Mapb.finish, popMap, writeMapTop, rootWrite]
  have hc := map_order_preserved ((none : Option Value), ([] : List BAcc))
    (mkV 9 rootWrite) [("b", .null), ("a", .num (.u64 5))]
    (some (.obj [("b", .null), ("a", .num (.u64 5))]), [])
  exact ⟨h, (hc.1 h).1, hc.2⟩

/-- C6 counterexample: the "no result produced" error is *not* distinct from
a protocol-rejection error.  A degenerate protocol that completes the
traversal of `null` without writing the slot and a protocol that rejects
`null` outright both make `from_value` return the very same error value
(miniserde's unit `Error`). -/
theorem no_result_error_cex :
    loop ((none : Option Unit), ()) [.visitor .null inertV] = .ok (none, ()) ∧
    from_value inertV () .null = .error .err ∧
    loop ((none : Option Unit), ()) [.visitor .null rejectV] = .error .err ∧
    from_value rejectV () .null = .error .err := by
  refine ⟨?_, ?_, ?_, ?_⟩
  · simp [loop, inertV, Visitor.null]
  · simp [from_value, loop, inertV, Visitor.null]
  · simp [loop, rejectV, Visitor.null]
  · simp [from_value, loop, rejectV, Visitor.null]

/-- C6 amended: when the traversal completes without the output slot ever
being populated, `from_value` does surface an error through the dedicated
`out.ok_or(Error)` path — but since miniserde's `Error` is a unit struct,
that error is the same value as every protocol-rejection error, so the two
cases are distinguishable by code path only, not by the returned error. -/
theorem no_result_error_amended {τ ρ : Type} (beginV : Visitor (Option τ × ρ))
    (r0 : ρ) (v : Value) (sf : Option τ × ρ) :
    loop (none, r0) [.visitor v beginV] = .ok sf → sf.1 = none →
      from_value beginV r0 v = .error .err ∧ ∀ e : MError, e = .err := by
  intro h hnone
  refine ⟨by simp [from_value, h, hnone], ?_⟩
  intro e
  cases e
  rfl

/-- Witness for C6 amended, at the degenerate protocol and input `null`. -/
theorem no_result_error_amended_witness :
    loop ((none : Option Unit), ()) [.visitor .null inertV] = .ok (none, ()) ∧
    from_value inertV () .null = .error .err ∧ ∀ e : MError, e = .err := by
  have h : loop ((none : Option Unit), ()) [.visitor .null inertV]
      = .ok (none, ()) := by
    simp [loop, inertV, Visitor.null]
  have hc := no_result_error_amended inertV () .null (none, ()) h rfl
  exact ⟨h, hc.1, hc.2⟩

/-- C7 counterexample: on the empty array (a run with no failing call), the
loop pops and processes 2 frames — the `VisitNode` frame and the exhausted
continuation frame whose pop calls finish — while the tree has 1 node and 0
container elements, so "frames processed = nodes + elements" fails. -/
theorem frame_count_cex :
    (loopC ((none : Option Value), ([] : List BAcc))
        [.visitor (.arr []) (mkV 2 rootWrite)]).2
      = .ok (some (.arr []), []) ∧
    (loopC ((none : Option Value), ([] : List BAcc))
        [.visitor (.arr []) (mkV 2 rootWrite)]).1 = 2 ∧
    nodes (.arr []) + elems (.arr []) = 1 := by
  refine ⟨?_, ?_, ?_⟩
  · simp [loopC, mkV, Visitor.seq, Seqb.finish, popSeq, rootWrite]
  · simp [loopC, mkV, Visitor.seq, Seqb.finish, popSeq, rootWrite]
  · simp [nodes, elems, nodesL, elemsL]

/-- C7 amended: on a run in which no protocol call fails, the loop (which
always terminates: it is a total function of the stack measure) pops and
processes exactly nodes + container elements/entries + containers frames:
each container's continuation frame is popped once per element plus once
more to find the iterator exhausted and call finish. -/
theorem frame_count_amended {σ} (s : σ) (v : Value) (vis : Visitor σ)
    (sf : σ) :
    (loopC s [.visitor v vis]).2 = .ok sf →
      loop s [.visitor v vis] = .ok sf ∧
      (loopC s [.visitor v vis]).1 = nodes v + elems v + conts v := by
  intro h
  constructor
  · rw [← loopC_snd]
    exact h
  · have hc := loopC_ok_count s [.visitor v vis] sf h
    have hs : stackPops [Event.visitor v vis] = pops v := by
      simp [stackPops, epops]
    rw [hc, hs, pops_identity]

/-- Witness for C7 amended on `[1, [true]]`: 9 frames = 5 nodes + 3
elements + 1 extra... (evaluated concretely: 5 nodes, 3 elements, 2
containers). -/
theorem frame_count_amended_witness :
    (loopC ((none : Option Value), ([] : List BAcc))
        [.visitor (.arr [.num (.u64 1), .arr [.bool true]])
          (mkV 9 rootWrite)]).2
      = .ok (some (.arr [.num (.u64 1), .arr [.bool true]]), []) ∧
    loop ((none : Option Value), ([] : List BAcc))
        [.visitor (.arr [.num (.u64 1), .arr [.bool true]]) (mkV 9 rootWrite)]
      = .ok (some (.arr [.num (.u64 1), .arr [.bool true]]), []) ∧
    (loopC ((none : Option Value), ([] : List BAcc))
        [.visitor (.arr [.num (.u64 1), .arr [.bool true]])
          (mkV 9 rootWrite)]).1
      = nodes (.arr [.num (.u64 1), .arr [.bool true]])
        + elems (.arr [.num (.u64 1), .arr [.bool true]])
        + conts (.arr [.num (.u64 1), .arr [.bool true]]) := by
  have h : (loopC ((none : Option Value), ([] : List BAcc))
      [.visitor (.arr [.num (.u64 1), .arr [.bool true]])
        (mkV 9 rootWrite)]).2
      = .ok (some (.arr [.num (.u64 1), .arr [.bool true]]), []) := by
    simp [loopC, mkV, Visitor.seq, Visitor.nonnegative, Visitor.boolean,
      Seqb.element, Seqb.finish, popSeq, writeSeqTop, rootWrite]
  have hc := frame_count_amended _ _ _ _ h
  exact ⟨h, hc.1, hc.2⟩

/-- C8: round-trip identity, instantiated with the canonical protocol/
encoding pair that is mutually inverse — the tree-rebuilding protocol, whose
tree-encoding is the identity: converting any value with it succeeds and
yields the value itself. -/
theorem round_trip (x : Value) :
    from_value (mkV (vsize x) rootWrite) [] x = .ok x :=
  from_value_mkV (vsize x) x le_rfl

/-- C9: depth independence.  The driver, defined by well-founded recursion
on the explicit work-stack measure (no call-stack descent into the value),
is total; converting an array nested to any depth `d` — `d` in the tens of
thousands included — with an accepting protocol succeeds. -/
theorem deep_nesting (d : Nat) :
    conts (nest d) = d ∧
    from_value (mkV (vsize (nest d)) rootWrite) [] (nest d) = .ok (nest d) :=
  ⟨nest_conts d, from_value_mkV (vsize (nest d)) (nest d) le_rfl⟩

/-- C10: on an empty array, the visitor's `seq` call is immediately followed
by the builder's `finish` call, with no `element` request in between;
symmetrically for an empty object: `map` then `finish`, with no `key`
request. -/
theorem empty_container {σ} (s s2 : σ) (vis vis2 : Visitor σ)
    (s' s2' : σ) (b : Seqb σ) (mb : Mapb σ) :
    vis.seq s = some (s', b) → vis2.map s2 = some (s2', mb) →
      (loopT s [.visitor (.arr []) vis]).1
        = [⟨.seqBegin, true⟩, ⟨.seqFinish, (b.finish s').isSome⟩] ∧
      (loopT s2 [.visitor (.obj []) vis2]).1
        = [⟨.mapBegin, true⟩, ⟨.mapFinish, (mb.finish s2').isSome⟩] := by
  intro h1 h2
  constructor
  · cases hf : b.finish s' <;> simp [loopT, h1, hf]
  · cases hf : mb.finish s2' <;> simp [loopT, h2, hf]

/-- Witness for C10 with the tree-rebuilding protocol at fuel 1. -/
theorem empty_container_witness :
    Visitor.seq (mkV 1 rootWrite) ((none : Option Value), ([] : List BAcc))
      = some ((none, [.seqAcc []]),
        .mk (fun s' => some (s', mkV 0 writeSeqTop)) (popSeq rootWrite)) ∧
    Visitor.map (mkV 1 rootWrite) ((none : Option Value), ([] : List BAcc))
      = some ((none, [.mapAcc []]),
        .mk (fun k s' => some (s', mkV 0 (writeMapTop k))) (popMap rootWrite)) ∧
    (loopT ((none : Option Value), ([] : List BAcc))
        [.visitor (.arr []) (mkV 1 rootWrite)]).1
      = [⟨.seqBegin, true⟩, ⟨.seqFinish, true⟩] ∧
    (loopT ((none : Option Value), ([] : List BAcc))
        [.visitor (.obj []) (mkV 1 rootWrite)]).1
      = [⟨.mapBegin, true⟩, ⟨.mapFinish, true⟩] := by
  have h1 : Visitor.seq (mkV 1 rootWrite)
      ((none : Option Value), ([] : List BAcc))
      = some ((none, [.seqAcc []]),
        .mk (fun s' => some (s', mkV 0 writeSeqTop)) (popSeq rootWrite)) := by
    simp [mkV, Visitor.seq]
  have h2 : Visitor.map (mkV 1 rootWrite)
      ((none : Option Value), ([] : List BAcc))
      = some ((none, [.mapAcc []]),
        .mk (fun k s' => some (s', mkV 0 (writeMapTop k))) (popMap rootWrite)) := by
    simp [mkV, Visitor.map]
  have hc := empty_container ((none : Option Value), ([] : List BAcc))
    ((none : Option Value), ([] : List BAcc)) (mkV 1 rootWrite)
    (mkV 1 rootWrite) _ _ _ _ h1 h2
  refine ⟨h1, h2, ?_, ?_⟩
  · have := hc.1
    simpa [Seqb.finish, popSeq, rootWrite] using this
  · have := hc.2
    simpa [Mapb.finish, popMap, rootWrite] using this

end MiniserdeFromValue
